import Mathlib

/-!
Verification of the incremental-execution core of `cx-core-schemas`:
`build_dependency_graph` and `calculate_cache_key` from
`src/cx_kit/utils/orchestration.py`, over the step schemas of
`src/cx_kit/schemas/workflow.py` (`WorkflowStep`) and
`src/cx_kit/schemas/project.py` (`Block`).

Modelling conventions:
* Python strings are `String` (a packed `List Char` of unicode code points).
* JSON-serializable values (`model_dump` output, the `run` payload, …) are
  the mutual inductive `Json`/`JsonList`/`JsonObj` below.
* `json.dumps(-, sort_keys=True)` is modelled character-exactly by
  `renderJson` (default separators `", "`/`": "`, `ensure_ascii=True`
  escaping, recursive key sorting by code point).
* `hashlib.sha256` is a collision-resistant digest of the byte stream fed to
  `update`; the model's digest is the (decoded) stream itself, so that key
  equality in the model coincides with equality of the exact bytes hashed by
  the code.  Every (in)equality proved about cache keys is therefore a
  statement about the hashed byte stream, which is what the code controls.
* `networkx.DiGraph` is modelled by insertion-ordered node and edge lists
  with set semantics (`addNode` / `addEdge` deduplicate), and
  `nx.is_directed_acyclic_graph` / `nx.find_cycle` by an executable
  source-peeling check proved equivalent to the absence of a directed cycle.
-/

deriving instance DecidableEq for Except

/-! ## JSON values and canonical serialization (`json.dumps(-, sort_keys=True)`) -/

mutual

/-- A JSON-serializable Python value (`str`, `int`, `bool`, `None`, `list`,
`dict`), as produced by `pydantic.BaseModel.model_dump` and consumed by
`json.dumps`. -/
inductive Json where
  | null : Json
  | bool (b : Bool) : Json
  | num (n : Int) : Json
  | str (s : String) : Json
  | arr (items : JsonList) : Json
  | obj (entries : JsonObj) : Json

/-- A Python list of JSON values. -/
inductive JsonList where
  | nil : JsonList
  | cons (hd : Json) (tl : JsonList) : JsonList

/-- A Python dict with string keys and JSON values (in insertion order; a
real dict never holds two entries with the same key). -/
inductive JsonObj where
  | nil : JsonObj
  | cons (k : String) (v : Json) (tl : JsonObj) : JsonObj

end

/-- Lowercase hexadecimal digit, as used by `json.dumps` in `\uXXXX` escapes. -/
def hexDigit (n : Nat) : Char :=
  if n < 10 then Char.ofNat (48 + n) else Char.ofNat (87 + n)

/-- Four lowercase hex digits of a code unit below `0x10000`. -/
def hex4 (n : Nat) : List Char :=
  [hexDigit (n / 4096 % 16), hexDigit (n / 256 % 16), hexDigit (n / 16 % 16), hexDigit (n % 16)]

/-- `json.dumps` escaping of one character with `ensure_ascii=True` (the
default): `"` and `\` and the five short escapes, printable ASCII verbatim,
everything else as `\uXXXX`, with surrogate pairs above the BMP. -/
def escChar (c : Char) : List Char :=
  if c = '"' then ['\\', '"']
  else if c = '\\' then ['\\', '\\']
  else if c = '\n' then ['\\', 'n']
  else if c = '\r' then ['\\', 'r']
  else if c = '\t' then ['\\', 't']
  else if c.toNat = 8 then ['\\', 'b']
  else if c.toNat = 12 then ['\\', 'f']
  else if 32 ≤ c.toNat ∧ c.toNat ≤ 126 then [c]
  else if c.toNat < 65536 then '\\' :: 'u' :: hex4 c.toNat
  else '\\' :: 'u' :: hex4 (55296 + (c.toNat - 65536) / 1024)
         ++ '\\' :: 'u' :: hex4 (56320 + (c.toNat - 65536) % 1024)

/-- `json.dumps` rendering of a Python `str` literal. -/
def renderString (s : String) : List Char :=
  '"' :: (s.data.map escChar).flatten ++ ['"']

/-- `json.dumps` rendering of a Python `int`. -/
def renderInt : Int → List Char
  | .ofNat n => (Nat.repr n).data
  | .negSucc n => '-' :: (Nat.repr (n + 1)).data

/-- Join pre-rendered items with the default `json.dumps` item separator `", "`. -/
def joinComma (l : List (List Char)) : List Char :=
  List.intercalate (", ".data) l

/-- Lexicographic comparison of character lists by code point, the order
Python uses to compare `str` values (hence the order of `sort_keys=True`
and of `sorted(...)` on string keys). -/
def charsLe : List Char → List Char → Bool
  | [], _ => true
  | _ :: _, [] => false
  | a :: as, b :: bs =>
    if a.toNat < b.toNat then true
    else if b.toNat < a.toNat then false
    else charsLe as bs

/-- Python `str` comparison `a <= b`. -/
def strLeB (a b : String) : Bool := charsLe a.data b.data

/-- Insert `x` into `l` before the first element `y` with `le x y`. -/
def insertSorted (le : α → α → Bool) (x : α) : List α → List α
  | [] => [x]
  | y :: ys => if le x y then x :: y :: ys else y :: insertSorted le x ys

/-- Stable insertion sort: the model of Python's (stable) `sorted`; on lists
whose sort keys are pairwise distinct — the only lists this file sorts —
every stable sort produces the same output. -/
def insertionSortBy (le : α → α → Bool) : List α → List α
  | [] => []
  | x :: xs => insertSorted le x (insertionSortBy le xs)

/-- Sort rendered dict entries by key (Python `sorted(dct.items())`, which for
unique keys orders by key alone) and render each as `"key": value`. -/
def sortEntries (l : List (String × List Char)) : List (List Char) :=
  (insertionSortBy (fun a b => strLeB a.1 b.1) l).map
    (fun kv => renderString kv.1 ++ ':' :: ' ' :: kv.2)

mutual

/-- Character-exact model of `json.dumps(v, sort_keys=True)` (default
separators, `ensure_ascii=True`).  Dict entries are rendered in key-sorted
order at every nesting level; each value is rendered before sorting, which
coincides with sorting first because an entry's rendering is independent of
its position. -/
def renderJson : Json → List Char
  | .null => "null".data
  | .bool true => "true".data
  | .bool false => "false".data
  | .num n => renderInt n
  | .str s => renderString s
  | .arr xs => '[' :: joinComma (renderItems xs) ++ [']']
  | .obj kvs => '{' :: joinComma (sortEntries (renderEntries kvs)) ++ ['}']

/-- Render every item of a list. -/
def renderItems : JsonList → List (List Char)
  | .nil => []
  | .cons x xs => renderJson x :: renderItems xs

/-- Render every value of a dict, keeping its key. -/
def renderEntries : JsonObj → List (String × List Char)
  | .nil => []
  | .cons k v tl => (k, renderJson v) :: renderEntries tl

end

/-! ## The `Block` schema (`src/cx_kit/schemas/project.py`) -/

/-- The `outputs` field's type `Union[List[str], Dict[str, str], None]`
(the `None` case is carried by the surrounding `Option`). -/
inductive Outputs where
  | list (items : List String)
  | dict (pairs : List (String × String))
deriving DecidableEq

/-- The legacy `Block` pydantic model: the "job ticket" hashed by
`calculate_cache_key`.  Field `if_condition` is declared with
`alias="if"` and `populate_by_name=True`; `model_dump(by_alias=True)`
therefore emits it under the key `"if"`.  (`PrivateAttr`s are not part of
the dump and extra fields cannot shadow declared field names, so neither
is modelled.) -/
structure Block where
  id : String
  name : Option String := none
  engine : Option String := none
  connection : Option String := none
  run : Option JsonObj := none
  content : Option String := none
  inputs : List String := []
  outputs : Option Outputs := none
  depends_on : Option (List String) := none
  if_condition : Option String := none

/-- A Python list of strings as a JSON value. -/
def jsonOfStrings (l : List String) : Json :=
  .arr (l.foldr (fun s acc => .cons (.str s) acc) .nil)

/-- The `outputs` field as a JSON value. -/
def outputsJson : Outputs → Json
  | .list items => jsonOfStrings items
  | .dict pairs => .obj (pairs.foldr (fun kv acc => .cons kv.1 (.str kv.2) acc) .nil)

/-- `rendered_block.model_dump(by_alias=True)` as an association list in
field-declaration order.  A `None`-valued field is dumped with value Python
`None`, modelled as the `Option.none` in the second component; note the last
key is the alias `"if"`, not the field name `"if_condition"`. -/
def blockDump (b : Block) : List (String × Option Json) :=
  [("id", some (.str b.id)),
   ("name", b.name.map .str),
   ("engine", b.engine.map .str),
   ("connection", b.connection.map .str),
   ("run", b.run.map .obj),
   ("content", b.content.map .str),
   ("inputs", some (jsonOfStrings b.inputs)),
   ("outputs", b.outputs.map outputsJson),
   ("depends_on", (b.depends_on.map jsonOfStrings)),
   ("if", b.if_condition.map .str)]

/-- `block_dict.get(k)`: `none` both when the key is absent and when the
stored value is Python `None` — exactly the two cases the code's
`is not None` filter removes. -/
def dumpGet (b : Block) (k : String) : Option Json :=
  match (blockDump b).find? (fun kv => kv.1 == k) with
  | some kv => kv.2
  | none => none

/-- The `semantic_fields` set of `calculate_cache_key` (orchestration.py
lines 88–96), listed in sorted order; Python iterates the set in an
unspecified order, but the subsequent `sort_keys=True` serialization makes
the order immaterial. -/
def semanticFieldsSorted : List String :=
  ["connection", "content", "engine", "if_condition", "inputs", "outputs", "run"]

/-- `{k: block_dict.get(k) for k in semantic_fields if block_dict.get(k) is not None}`
(orchestration.py lines 100–102). -/
def semanticObj (b : Block) : JsonObj :=
  semanticFieldsSorted.foldr
    (fun k acc =>
      match dumpGet b k with
      | some v => .cons k v acc
      | none => acc)
    .nil

/-! ## `calculate_cache_key` (orchestration.py lines 77–115) -/

/-- One `hasher.update` chunk per parent: `f"{block_id}:{hash_val or ''}"`
(for a `str` value, `hash_val or ''` is `hash_val` unless it is the empty
string, which maps to itself). -/
def parentChunk (kv : String × String) : List Char :=
  kv.1.data ++ ':' :: kv.2.data

/-- `sorted(parent_hashes.items())`: the items of a Python dict are its
(unique) keys paired with their values; `sorted` orders the resulting
tuples, which for unique keys is ordering by key.  The association list
models the dict, so keys are first deduplicated (a genuine dict image has
no duplicates to remove). -/
def sortedParentItems (ph : List (String × String)) : List (String × String) :=
  (insertionSortBy strLeB ((ph.map Prod.fst).dedup)).map (fun k => (k, lookupVal ph k))
where
  /-- `dict[k]` on the association-list image of the dict. -/
  lookupVal (ph : List (String × String)) (k : String) : String :=
    match ph.find? (fun kv => kv.1 == k) with
    | some kv => kv.2
    | none => ""

/-- `calculate_cache_key(rendered_block, capability_version, parent_hashes)`:
feeds `json.dumps(semantic_dict, sort_keys=True)`, then the capability
version, then each sorted parent pair into one SHA-256 digest and returns
`"sha256:" + hexdigest`.  The digest is modelled by the byte stream itself
(see the file header): the returned string determines, and is determined
by, exactly the bytes hashed. -/
def calculate_cache_key (rendered_block : Block) (capability_version : String)
    (parent_hashes : List (String × String)) : String :=
  let semantic_str := renderJson (Json.obj (semanticObj rendered_block))
  let st := semantic_str
  let st := st ++ capability_version.data
  let st := (sortedParentItems parent_hashes).foldl (fun acc kv => acc ++ parentChunk kv) st
  String.mk ("sha256:".data ++ st)

/-! ## The `WorkflowStep` schema (`src/cx_kit/schemas/workflow.py`) -/

/-- The `WorkflowStep` pydantic model, the node type consumed by
`build_dependency_graph` (which reads only `id`, `depends_on` and
`inputs`; the remaining fields are carried for fidelity). -/
structure WorkflowStep where
  id : String
  name : Option String := none
  engine : Option String := none
  run : Option JsonObj := none
  content : Option String := none
  connection_source : Option String := none
  inputs : List String := []
  outputs : Option Outputs := none
  depends_on : Option (List String) := none
  if_condition : Option String := none

/-! ## `networkx.DiGraph`, as used by `build_dependency_graph` -/

/-- A directed graph with insertion-ordered node and edge lists and set
semantics, the fragment of `networkx.DiGraph` the code uses (node and edge
attributes play no role in any property and are not modelled). -/
structure DiGraph where
  nodes : List String
  edges : List (String × String)
deriving DecidableEq

/-- `dag.add_node(n)`: a no-op when the node is already present. -/
def DiGraph.addNode (g : DiGraph) (n : String) : DiGraph :=
  if n ∈ g.nodes then g else { g with nodes := g.nodes ++ [n] }

/-- `dag.add_edge(u, v)`: inserts missing endpoints (in order), then the
edge, deduplicating. -/
def DiGraph.addEdge (g : DiGraph) (u v : String) : DiGraph :=
  let g := g.addNode u
  let g := g.addNode v
  if (u, v) ∈ g.edges then g else { g with edges := g.edges ++ [(u, v)] }

/-! ## `build_dependency_graph` (orchestration.py lines 21–74) -/

/-- The two `ValueError`s of `build_dependency_graph`: an explicit
dependency naming no step (lines 54–56, `UnknownDependencyError` in the
specification), and a circular dependency carrying the cycle reported by
`nx.find_cycle` (lines 66–72, `CircularDependencyError`). -/
inductive BuildError where
  | unknownDependency (stepId : String) (depId : String)
  | circular (cycle : List String)
deriving DecidableEq

/-- Lines 49–56: `for dep_id in step.depends_on: if dep_id in step_map:
add_edge(dep_id, step.id) else: raise ValueError(...)`. -/
def addExplicitEdges (ids : List String) (sid : String) :
    DiGraph → List String → Except BuildError DiGraph
  | g, [] => .ok g
  | g, d :: ds =>
    if d ∈ ids then addExplicitEdges ids sid (g.addEdge d sid) ds
    else .error (.unknownDependency sid d)

/-- `"." in input_str`. -/
def hasDot (s : String) : Bool := s.data.any (fun c => c == '.')

/-- `input_str.split(".", 1)[0]`: the text before the first `.` (the whole
string when it has none). -/
def dotHead (s : String) : String := String.mk (s.data.takeWhile (fun c => c ≠ '.'))

/-- Lines 59–64: `for input_str in step.inputs: if "." in input_str:
dep_id = input_str.split(".", 1)[0]; if dep_id in step_map and
dep_id != step.id: add_edge(dep_id, step.id)`. -/
def addImplicitEdges (ids : List String) (sid : String) :
    DiGraph → List String → DiGraph
  | g, [] => g
  | g, inp :: rest =>
    let g :=
      if hasDot inp then
        if dotHead inp ∈ ids ∧ dotHead inp ≠ sid then g.addEdge (dotHead inp) sid else g
      else g
    addImplicitEdges ids sid g rest

/-- The loop body of lines 45–64 for one step: `dag.add_node(step.id, ...)`,
then the explicit edges (`if step.depends_on:` skips `None` and `[]`, which
is the same as iterating the empty list), then the implicit edges. -/
def processStep (ids : List String) (g : DiGraph) (s : WorkflowStep) :
    Except BuildError DiGraph := do
  let g := g.addNode s.id
  let g ← addExplicitEdges ids s.id g (s.depends_on.getD [])
  .ok (addImplicitEdges ids s.id g s.inputs)

/-- The `for step in steps:` loop of lines 45–64, propagating the first
raised error. -/
def buildSteps (ids : List String) : DiGraph → List WorkflowStep → Except BuildError DiGraph
  | g, [] => .ok g
  | g, s :: rest =>
    match processStep ids g s with
    | .ok g2 => buildSteps ids g2 rest
    | .error e => .error e

/-- `remaining.any (fun u => (u, n) is an edge)`: node `n` still has an
incoming edge from an unprocessed node. -/
def hasIncomingEdge (edges : List (String × String)) (remaining : List String)
    (n : String) : Bool :=
  remaining.any (fun u => decide ((u, n) ∈ edges))

/-- The first remaining node (in list order) with no incoming edge from a
remaining node. -/
def pickSource (edges : List (String × String)) (remaining : List String) :
    Option String :=
  remaining.find? (fun n => ! hasIncomingEdge edges remaining n)

/-- Source-peeling (Kahn's algorithm, always taking the first available node
in list order): returns the peeled order when the whole list is consumed,
or the stuck remainder — a nonempty set in which every node has an incoming
edge from the set — when none.  Called with fuel equal to the list length,
it decides exactly whether the edge set restricted to the list is acyclic,
which is how `nx.is_directed_acyclic_graph` is modelled. -/
def peelAux (edges : List (String × String)) : Nat → List String →
    Except (List String) (List String)
  | 0, remaining => if remaining.isEmpty then .ok [] else .error remaining
  | fuel + 1, remaining =>
    match pickSource edges remaining with
    | some n =>
      match peelAux edges fuel (remaining.erase n) with
      | .ok ord => .ok (n :: ord)
      | .error r => .error r
    | none => if remaining.isEmpty then .ok [] else .error remaining

/-- The predecessor-in-the-set function used to extract a concrete cycle
from a stuck set: the first member of `R` with an edge into `n` (total,
with an arbitrary default that is never reached on members of a stuck set). -/
def predInSet (edges : List (String × String)) (R : List String) (n : String) : String :=
  match R.find? (fun u => decide ((u, n) ∈ edges)) with
  | some u => u
  | none => n

/-- `[x, f x, f (f x), ..., f^k x]` (length `k + 1`). -/
def iterPred (f : String → String) (x : String) : Nat → List String
  | 0 => [x]
  | k + 1 => x :: iterPred f (f x) k

/-- Scan a predecessor trail, keeping the already-visited nodes most recent
first; at the first revisit `t`, the visited nodes strictly newer than `t`,
read from `t` backwards, form a directed cycle. -/
def cycleSearch : List String → List String → List String
  | [], _ => []
  | t :: rest, acc =>
    if t ∈ acc then t :: acc.takeWhile (fun x => x ≠ t)
    else cycleSearch rest (t :: acc)

/-- Model of `nx.find_cycle(dag, orientation="original")` (line 68), as a
list of node ids rather than edge tuples: follow in-set predecessors from
any member of the stuck set until a node repeats; the nodes between the two
visits form a cycle.  On a stuck set this always succeeds, which is proved
below (`cycleFromStuck_isCycle`). -/
def cycleFromStuck (edges : List (String × String)) (R : List String) : List String :=
  match R with
  | [] => []
  | r0 :: _ => cycleSearch (iterPred (predInSet edges R) r0 R.length) []

/-- `build_dependency_graph(steps)` (lines 21–74): build `step_map` keys,
run the edge-construction loop, then check acyclicity and on failure raise
with a concrete cycle.  Raising `ValueError` is modelled by returning
`Except.error`. -/
def build_dependency_graph (steps : List WorkflowStep) : Except BuildError DiGraph :=
  match buildSteps (steps.map (fun s => s.id)) ⟨[], []⟩ steps with
  | .error e => .error e
  | .ok dag =>
    match peelAux dag.edges dag.nodes.length dag.nodes with
    | .ok _ => .ok dag
    | .error stuck => .error (.circular (cycleFromStuck dag.edges stuck))

/-! ## Semantic acyclicity -/

/-- Every consecutive pair of the list is an edge. -/
def chainOk (edges : List (String × String)) : List String → Bool
  | [] => true
  | [_] => true
  | a :: b :: rest => decide ((a, b) ∈ edges) && chainOk edges (b :: rest)

/-- `c` is a directed cycle of `edges`: nonempty, consecutive members are
edges, and the last member has an edge back to the first. -/
def isCycle (edges : List (String × String)) (c : List String) : Bool :=
  match c with
  | [] => false
  | n :: _ => chainOk edges (c ++ [n])

/-- The edge set contains a directed cycle. -/
def Cyclic (edges : List (String × String)) : Prop :=
  ∃ c, isCycle edges c = true

/-- Modelled from the spec: the deterministic execution order of
`GraphBuilder.build`.  The repository's `build_dependency_graph` returns
only the validated graph; the topological order is produced by the external
orchestrator via the graph library, and section 9 of the specification
mandates the reproducible choice "stable by declaration order".  This
definition peels the first declared step (original input position) whose
predecessors are all emitted, which is exactly that tie-break. -/
def executionOrder (steps : List WorkflowStep) : Option (List String) :=
  let ids := steps.map (fun s => s.id)
  match buildSteps ids ⟨[], []⟩ steps with
  | .error _ => none
  | .ok dag =>
    match peelAux dag.edges ids.length ids with
    | .ok ord => some ord
    | .error _ => none

/-! ## The byte stream hashed by `calculate_cache_key` -/

theorem foldl_parentChunk (l : List (String × String)) (init : List Char) :
    l.foldl (fun acc kv => acc ++ parentChunk kv) init
      = init ++ (l.map parentChunk).flatten := by
  induction l generalizing init with
  | nil => simp
  | cons kv rest ih => simp [ih, List.append_assoc]

/-- The cache key determines and is determined by the exact byte stream the
code feeds to the digest, laid out in update order: canonical semantic JSON,
then the capability version, then the key-sorted parent pairs. -/
theorem cacheKey_data (b : Block) (v : String) (ph : List (String × String)) :
    (calculate_cache_key b v ph).data
      = "sha256:".data ++ (renderJson (Json.obj (semanticObj b)) ++ (v.data
          ++ ((sortedParentItems ph).map parentChunk).flatten)) := by
  simp [calculate_cache_key, foldl_parentChunk, List.append_assoc]

theorem string_ne_of_data_ne {a b : String} (h : a.data ≠ b.data) : a ≠ b :=
  fun e => h (congrArg String.data e)

/-- C8: for a fixed step and fixed parent keys, two distinct capability
version strings always produce distinct cache keys: the version bytes sit
between two fixed segments of the hashed stream, so the streams differ. -/
theorem cacheKey_version_sensitive (b : Block) (ph : List (String × String))
    (v1 v2 : String) (h : v1 ≠ v2) :
    calculate_cache_key b v1 ph ≠ calculate_cache_key b v2 ph := by
  apply string_ne_of_data_ne
  rw [cacheKey_data, cacheKey_data]
  intro e
  exact h (String.ext (List.append_cancel_right
    (List.append_cancel_left (List.append_cancel_left e))))

/-- Witness for `cacheKey_version_sensitive`: the specification's scenario —
step `S` with `run={"op":"x"}`, no parents, versions `1.0.0` and `1.0.1`. -/
theorem cacheKey_version_sensitive_witness :
    calculate_cache_key { id := "S", run := some (.cons "op" (.str "x") .nil) } "1.0.0" []
      ≠ calculate_cache_key { id := "S", run := some (.cons "op" (.str "x") .nil) } "1.0.1" [] :=
  cacheKey_version_sensitive
    { id := "S", run := some (.cons "op" (.str "x") .nil) } [] "1.0.0" "1.0.1" (by decide)

/-- C9: the purely descriptive `name` field never influences the cache key
(the `Block` schema has no `description` field; `name` is its only
descriptive field).  The semantic dictionary reads only the seven semantic
keys, none of which is `name`. -/
theorem cacheKey_ignores_name (b : Block) (n : Option String) (v : String)
    (ph : List (String × String)) :
    calculate_cache_key { b with name := n } v ph = calculate_cache_key b v ph := rfl

/-! ## The condition expression never reaches the hash (claim C1) -/

/-- A concrete block whose guard (`if` in YAML, field `if_condition`) is
`inputs.flag`. -/
def condBlockA : Block :=
  { id := "s1", engine := some "system:python",
    run := some (.cons "op" (.str "x") .nil), if_condition := some "inputs.flag" }

/-- The same block with the guard negated — every other field equal. -/
def condBlockB : Block :=
  { id := "s1", engine := some "system:python",
    run := some (.cons "op" (.str "x") .nil), if_condition := some "not inputs.flag" }

/-- C1 fails on the code: `semantic_fields` lists `"if_condition"`, but
`model_dump(by_alias=True)` emits the field under its alias `"if"`, so
`block_dict.get("if_condition")` is always `None` and the condition
expression is silently dropped from the canonical representation.  Two
blocks identical except for their condition expression therefore hash to
the same cache key, contradicting both the specification and the code's
own declared semantic-field set. -/
theorem cacheKey_ignores_if_condition :
    condBlockA.if_condition ≠ condBlockB.if_condition
    ∧ condBlockA.id = condBlockB.id ∧ condBlockA.name = condBlockB.name
    ∧ condBlockA.engine = condBlockB.engine
    ∧ condBlockA.connection = condBlockB.connection
    ∧ condBlockA.run = condBlockB.run ∧ condBlockA.content = condBlockB.content
    ∧ condBlockA.inputs = condBlockB.inputs
    ∧ condBlockA.outputs = condBlockB.outputs
    ∧ condBlockA.depends_on = condBlockB.depends_on
    ∧ calculate_cache_key condBlockA "1.0.0" []
        = calculate_cache_key condBlockB "1.0.0" [] := by
  refine ⟨by decide, rfl, rfl, rfl, rfl, ?_, rfl, rfl, rfl, rfl, by decide⟩
  rfl

/-! ## Which fields the canonical representation keeps (claim C6) -/

/-- The key list of a modelled Python dict. -/
def objKeys : JsonObj → List String
  | .nil => []
  | .cons k _ tl => k :: objKeys tl

theorem objKeys_foldr (b : Block) (L : List String) :
    objKeys (L.foldr
      (fun k acc =>
        match dumpGet b k with
        | some v => JsonObj.cons k v acc
        | none => acc)
      .nil)
      = L.filter (fun k => (dumpGet b k).isSome) := by
  induction L with
  | nil => rfl
  | cons k rest ih =>
    cases h : dumpGet b k <;> simp [h, objKeys, ih]

/-- C6 (amended): the canonical representation keeps exactly the semantic
fields whose dumped value is not Python `None`; a field that is present but
empty (empty string, empty list) is *kept*, so — contrary to the original
claim — a block with an absent optional field and one with the same field
present but empty hash to different keys.  (The `inputs` list, defaulted to
`[]`, is in particular always present.) -/
theorem semanticObj_keeps_non_none :
    (∀ b : Block, objKeys (semanticObj b)
        = semanticFieldsSorted.filter (fun k => (dumpGet b k).isSome))
    ∧ calculate_cache_key { id := "s" } "v" []
        ≠ calculate_cache_key { id := "s", content := some "" } "v" [] :=
  ⟨fun b => objKeys_foldr b semanticFieldsSorted, by decide⟩

/-- Counterexample to C6 as stated: two blocks that differ only in that one
has absent `content` and the other has `content` present but empty produce
*different* cache keys (the code's filter is `is not None`, not
"absent or empty"). -/
theorem absent_vs_empty_content_changes_key :
    (({ id := "s" } : Block).content = none)
    ∧ (({ id := "s", content := some "" } : Block).content = some "")
    ∧ (({ id := "s" } : Block).engine = ({ id := "s", content := some "" } : Block).engine)
    ∧ calculate_cache_key { id := "s" } "v" []
        ≠ calculate_cache_key { id := "s", content := some "" } "v" [] := by
  exact ⟨rfl, rfl, rfl, by decide⟩

/-! ## Order lemmas for the key sort -/

theorem charsLe_cons {x y : Char} {xs ys : List Char} :
    charsLe (x :: xs) (y :: ys) = true
      ↔ x.toNat < y.toNat ∨ (x.toNat = y.toNat ∧ charsLe xs ys = true) := by
  by_cases h1 : x.toNat < y.toNat
  · simp [charsLe, h1]
  · by_cases h2 : y.toNat < x.toNat
    · have hne : x.toNat ≠ y.toNat := by omega
      simp [charsLe, h1, h2, hne]
    · have heq : x.toNat = y.toNat := by omega
      simp [charsLe, h1, h2, heq]

theorem charsLe_trans : ∀ a b c : List Char,
    charsLe a b = true → charsLe b c = true → charsLe a c = true
  | [], _, _, _, _ => rfl
  | _ :: _, [], _, h, _ => nomatch h
  | _ :: _, _ :: _, [], _, h => nomatch h
  | x :: xs, y :: ys, z :: zs, h1, h2 => by
    rw [charsLe_cons] at h1 h2 ⊢
    rcases h1 with h1 | ⟨e1, r1⟩ <;> rcases h2 with h2 | ⟨e2, r2⟩
    · exact Or.inl (by omega)
    · exact Or.inl (by omega)
    · exact Or.inl (by omega)
    · exact Or.inr ⟨by omega, charsLe_trans xs ys zs r1 r2⟩

theorem charsLe_total : ∀ a b : List Char, charsLe a b = true ∨ charsLe b a = true
  | [], _ => Or.inl rfl
  | _ :: _, [] => Or.inr rfl
  | x :: xs, y :: ys => by
    rcases Nat.lt_trichotomy x.toNat y.toNat with h | h | h
    · exact Or.inl (charsLe_cons.mpr (Or.inl h))
    · rcases charsLe_total xs ys with r | r
      · exact Or.inl (charsLe_cons.mpr (Or.inr ⟨h, r⟩))
      · exact Or.inr (charsLe_cons.mpr (Or.inr ⟨h.symm, r⟩))
    · exact Or.inr (charsLe_cons.mpr (Or.inl h))

theorem strLeB_trans (a b c : String) (h1 : strLeB a b = true) (h2 : strLeB b c = true) :
    strLeB a c = true :=
  charsLe_trans a.data b.data c.data h1 h2

theorem strLeB_total (a b : String) : strLeB a b = true ∨ strLeB b a = true :=
  charsLe_total a.data b.data

/-! ## Lemmas about the insertion sort -/

theorem insertSorted_perm (le : α → α → Bool) (x : α) :
    ∀ l : List α, List.Perm (insertSorted le x l) (x :: l)
  | [] => List.Perm.refl _
  | y :: ys => by
    rw [insertSorted]
    split
    · exact List.Perm.refl _
    · exact ((insertSorted_perm le x ys).cons y).trans (List.Perm.swap x y ys)

theorem insertionSortBy_perm (le : α → α → Bool) :
    ∀ l : List α, List.Perm (insertionSortBy le l) l
  | [] => List.Perm.refl _
  | x :: xs =>
    (insertSorted_perm le x (insertionSortBy le xs)).trans
      ((insertionSortBy_perm le xs).cons x)

theorem insertSorted_pairwise (le : α → α → Bool)
    (htr : ∀ a b c, le a b = true → le b c = true → le a c = true)
    (hto : ∀ a b, le a b = true ∨ le b a = true) (x : α) :
    ∀ l : List α, l.Pairwise (fun a b => le a b = true) →
      (insertSorted le x l).Pairwise (fun a b => le a b = true)
  | [], _ => List.pairwise_singleton _ _
  | y :: ys, hp => by
    rw [List.pairwise_cons] at hp
    obtain ⟨hy, hys⟩ := hp
    by_cases hxy : le x y = true
    · rw [insertSorted, if_pos hxy]
      refine List.Pairwise.cons ?_ (List.Pairwise.cons hy hys)
      intro z hz
      rcases List.mem_cons.mp hz with rfl | hz
      · exact hxy
      · exact htr _ _ _ hxy (hy z hz)
    · rw [insertSorted, if_neg hxy]
      refine List.Pairwise.cons ?_ (insertSorted_pairwise le htr hto x ys hys)
      intro z hz
      have hz2 : z ∈ x :: ys := (insertSorted_perm le x ys).mem_iff.mp hz
      rcases List.mem_cons.mp hz2 with rfl | hz2
      · rcases hto y z with h | h
        · exact h
        · exact absurd h hxy
      · exact hy z hz2

theorem insertionSortBy_pairwise (le : α → α → Bool)
    (htr : ∀ a b c, le a b = true → le b c = true → le a c = true)
    (hto : ∀ a b, le a b = true ∨ le b a = true) :
    ∀ l : List α, (insertionSortBy le l).Pairwise (fun a b => le a b = true)
  | [] => List.Pairwise.nil
  | x :: xs => insertSorted_pairwise le htr hto x _ (insertionSortBy_pairwise le htr hto xs)

/-! ## Changing one parent key (claim C7) -/

/-- Replace the value stored under `pid` in the parent map, leaving every
other entry unchanged: "changing the key value of a single entry of
`parentKeys`". -/
def updateParent (ph : List (String × String)) (pid v : String) : List (String × String) :=
  ph.map (fun kv => if kv.1 = pid then (kv.1, v) else kv)

theorem updateParent_keys (ph : List (String × String)) (pid v : String) :
    (updateParent ph pid v).map Prod.fst = ph.map Prod.fst := by
  induction ph with
  | nil => rfl
  | cons kv rest ih =>
    by_cases h : kv.1 = pid <;> simp [updateParent, h] <;>
      simpa [updateParent] using ih

theorem find?_map_invariant {α : Type} (p : α → Bool) (f : α → α)
    (hp : ∀ a, p (f a) = p a) (hf : ∀ a, p a = true → f a = a) :
    ∀ l : List α, (l.map f).find? p = l.find? p
  | [] => rfl
  | a :: l => by
    by_cases h : p a = true
    · rw [List.map_cons, List.find?_cons_of_pos _ (by rw [hp]; exact h),
        List.find?_cons_of_pos _ h, hf a h]
    · rw [List.map_cons, List.find?_cons_of_neg _ (by rw [hp]; simpa using h),
        List.find?_cons_of_neg _ (by simpa using h)]
      exact find?_map_invariant p f hp hf l

theorem lookupVal_updateParent_ne (ph : List (String × String)) (pid v k : String)
    (h : k ≠ pid) :
    sortedParentItems.lookupVal (updateParent ph pid v) k
      = sortedParentItems.lookupVal ph k := by
  have hfind : (updateParent ph pid v).find? (fun kv => kv.1 == k)
      = ph.find? (fun kv => kv.1 == k) := by
    refine find?_map_invariant _ _ ?_ ?_ ph
    · intro kv; by_cases hk : kv.1 = pid <;> simp [hk]
    · intro kv hk
      have : kv.1 = k := by simpa using hk
      rw [if_neg (by rw [this]; exact h)]
  simp [sortedParentItems.lookupVal, hfind]

theorem lookupVal_eq_of_mem (pid vold : String) :
    ∀ ph : List (String × String), (ph.map Prod.fst).Nodup →
      (pid, vold) ∈ ph → sortedParentItems.lookupVal ph pid = vold
  | [], _, hm => by cases hm
  | kv :: rest, hnd, hm => by
    rcases List.mem_cons.mp hm with rfl | hm2
    · simp [sortedParentItems.lookupVal]
    · have hk : kv.1 ≠ pid := by
        intro e
        rw [List.map_cons, List.nodup_cons] at hnd
        exact hnd.1 (e ▸ List.mem_map_of_mem Prod.fst hm2)
      rw [List.map_cons, List.nodup_cons] at hnd
      have ih := lookupVal_eq_of_mem pid vold rest hnd.2 hm2
      have hb : (kv.1 == pid) = false := beq_eq_false_iff_ne.mpr hk
      simpa [sortedParentItems.lookupVal, List.find?_cons, hb] using ih

theorem lookupVal_updateParent_self (pid v : String) :
    ∀ ph : List (String × String), pid ∈ ph.map Prod.fst →
      sortedParentItems.lookupVal (updateParent ph pid v) pid = v
  | [], hm => by cases hm
  | kv :: rest, hm => by
    by_cases h : kv.1 = pid
    · simp [updateParent, sortedParentItems.lookupVal, h]
    · have hrest : pid ∈ rest.map Prod.fst := by
        rw [List.map_cons, List.mem_cons] at hm
        rcases hm with e | hm2
        · exact absurd e.symm h
        · exact hm2
      have ih := lookupVal_updateParent_self pid v rest hrest
      have hb : (kv.1 == pid) = false := beq_eq_false_iff_ne.mpr h
      simpa [updateParent, sortedParentItems.lookupVal, List.find?_cons, h, hb] using ih

/-- C7: the cache key's byte stream is exactly canonical semantic JSON,
then the capability version, then the parent pairs sorted lexicographically
by step id; and changing the key value of any single `parentKeys` entry
(all else equal) changes the resulting cache key. -/
theorem cacheKey_parent_sensitive (b : Block) (v : String)
    (ph : List (String × String)) (pid vold vnew : String)
    (hnd : (ph.map Prod.fst).Nodup) (hmem : (pid, vold) ∈ ph) (hne : vnew ≠ vold) :
    ((calculate_cache_key b v ph).data
        = "sha256:".data ++ (renderJson (Json.obj (semanticObj b)) ++ (v.data
            ++ ((sortedParentItems ph).map parentChunk).flatten)))
    ∧ ((sortedParentItems ph).map Prod.fst).Pairwise (fun a c => strLeB a c = true)
    ∧ calculate_cache_key b v ph ≠ calculate_cache_key b v (updateParent ph pid vnew) := by
  refine ⟨cacheKey_data b v ph, ?_, ?_⟩
  · have hkeys : (sortedParentItems ph).map Prod.fst
        = insertionSortBy strLeB ((ph.map Prod.fst).dedup) := by
      simp [sortedParentItems, List.map_map, Function.comp_def]
    rw [hkeys]
    exact insertionSortBy_pairwise strLeB strLeB_trans strLeB_total _
  · intro e
    have e2 := congrArg String.data e
    rw [cacheKey_data, cacheKey_data] at e2
    have e3 := List.append_cancel_left (List.append_cancel_left (List.append_cancel_left e2))
    have hkeq : (updateParent ph pid vnew).map Prod.fst = ph.map Prod.fst :=
      updateParent_keys ph pid vnew
    have hstr1 : ((sortedParentItems ph).map parentChunk).flatten
        = ((insertionSortBy strLeB ((ph.map Prod.fst).dedup)).map
            (fun k => parentChunk (k, sortedParentItems.lookupVal ph k))).flatten := by
      simp [sortedParentItems, List.map_map, Function.comp_def]
    have hstr2 : ((sortedParentItems (updateParent ph pid vnew)).map parentChunk).flatten
        = ((insertionSortBy strLeB ((ph.map Prod.fst).dedup)).map
            (fun k => parentChunk
              (k, sortedParentItems.lookupVal (updateParent ph pid vnew) k))).flatten := by
      simp [sortedParentItems, hkeq, List.map_map, Function.comp_def]
    rw [hstr1, hstr2] at e3
    have hpidks : pid ∈ insertionSortBy strLeB ((ph.map Prod.fst).dedup) :=
      (insertionSortBy_perm strLeB _).mem_iff.mpr
        (List.mem_dedup.mpr (List.mem_map_of_mem Prod.fst hmem))
    have hksnd : (insertionSortBy strLeB ((ph.map Prod.fst).dedup)).Nodup :=
      (insertionSortBy_perm strLeB _).nodup_iff.mpr (List.nodup_dedup _)
    obtain ⟨A, B, hAB⟩ := List.append_of_mem hpidks
    rw [hAB] at hksnd
    obtain ⟨hndA, hndPB, hdisj⟩ := List.nodup_append.mp hksnd
    have hpidA : pid ∉ A := fun hA => hdisj hA (List.mem_cons_self pid B)
    have hpidB : pid ∉ B := (List.nodup_cons.mp hndPB).1
    rw [hAB, List.map_append, List.map_cons, List.flatten_append, List.flatten_cons,
      List.map_append, List.map_cons, List.flatten_append, List.flatten_cons] at e3
    have hAeq : (A.map (fun k => parentChunk
          (k, sortedParentItems.lookupVal (updateParent ph pid vnew) k)))
        = A.map (fun k => parentChunk (k, sortedParentItems.lookupVal ph k)) := by
      refine List.map_congr_left ?_
      intro k hkA
      rw [lookupVal_updateParent_ne ph pid vnew k (fun ee => hpidA (ee ▸ hkA))]
    have hBeq : (B.map (fun k => parentChunk
          (k, sortedParentItems.lookupVal (updateParent ph pid vnew) k)))
        = B.map (fun k => parentChunk (k, sortedParentItems.lookupVal ph k)) := by
      refine List.map_congr_left ?_
      intro k hkB
      rw [lookupVal_updateParent_ne ph pid vnew k (fun ee => hpidB (ee ▸ hkB))]
    rw [hAeq, hBeq] at e3
    have e4 := List.append_cancel_left e3
    have e5 := List.append_cancel_right e4
    rw [lookupVal_eq_of_mem pid vold ph hnd hmem,
      lookupVal_updateParent_self pid vnew ph (List.mem_map_of_mem Prod.fst hmem)] at e5
    have e7 : vold.data = vnew.data := by simpa [parentChunk] using e5
    exact hne (String.ext e7).symm

/-- Witness for `cacheKey_parent_sensitive`: a two-parent map in which the
key stored for parent `a` changes from `h1` to `h9`. -/
theorem cacheKey_parent_sensitive_witness :
    calculate_cache_key { id := "S" } "1.0.0" [("a", "h1"), ("c", "h2")]
      ≠ calculate_cache_key { id := "S" } "1.0.0"
          (updateParent [("a", "h1"), ("c", "h2")] "a" "h9") :=
  (cacheKey_parent_sensitive { id := "S" } "1.0.0" [("a", "h1"), ("c", "h2")] "a" "h1" "h9"
    (by decide) (by decide) (by decide)).2.2

/-! ## Basic graph lemmas -/

theorem mem_nodes_addNode {g : DiGraph} {n x : String} :
    x ∈ (g.addNode n).nodes ↔ x ∈ g.nodes ∨ x = n := by
  rw [DiGraph.addNode]
  split
  · rename_i h
    constructor
    · exact Or.inl
    · rintro (hx | rfl)
      · exact hx
      · exact h
  · simp [List.mem_append]

theorem edges_addNode (g : DiGraph) (n : String) : (g.addNode n).edges = g.edges := by
  rw [DiGraph.addNode]
  split <;> rfl

theorem nodup_nodes_addNode {g : DiGraph} {n : String} (h : g.nodes.Nodup) :
    (g.addNode n).nodes.Nodup := by
  rw [DiGraph.addNode]
  split
  · exact h
  · rename_i hn
    simp only [List.nodup_append, List.nodup_cons, List.not_mem_nil, not_false_iff,
      List.nodup_nil, and_true, true_and]
    refine ⟨h, ?_⟩
    intro a ha hmem
    rw [List.mem_singleton] at hmem
    exact hn (hmem ▸ ha)

theorem mem_nodes_addEdge {g : DiGraph} {u v x : String} :
    x ∈ (g.addEdge u v).nodes ↔ x ∈ g.nodes ∨ x = u ∨ x = v := by
  rw [DiGraph.addEdge]
  split <;> simp [mem_nodes_addNode, or_assoc]

theorem mem_edges_addEdge {g : DiGraph} {u v : String} {e : String × String} :
    e ∈ (g.addEdge u v).edges ↔ e ∈ g.edges ∨ e = (u, v) := by
  rw [DiGraph.addEdge]
  split
  · rename_i h
    rw [edges_addNode, edges_addNode] at h ⊢
    constructor
    · exact Or.inl
    · rintro (he | rfl)
      · exact he
      · exact h
  · simp [edges_addNode, List.mem_append]

theorem nodup_nodes_addEdge {g : DiGraph} {u v : String} (h : g.nodes.Nodup) :
    (g.addEdge u v).nodes.Nodup := by
  rw [DiGraph.addEdge]
  split <;> exact nodup_nodes_addNode (nodup_nodes_addNode h)

/-- The construction invariant: nodes are unique, every node is a declared
step id, and every edge endpoint is a node. -/
def GInv (S : List String) (g : DiGraph) : Prop :=
  g.nodes.Nodup ∧ (∀ x ∈ g.nodes, x ∈ S)
    ∧ (∀ e ∈ g.edges, e.1 ∈ g.nodes ∧ e.2 ∈ g.nodes)

theorem GInv_empty (S : List String) : GInv S ⟨[], []⟩ :=
  ⟨List.nodup_nil, fun _ hx => absurd hx (List.not_mem_nil _), fun _ he => absurd he (List.not_mem_nil _)⟩

theorem GInv_addNode {S : List String} {g : DiGraph} {n : String}
    (hg : GInv S g) (hn : n ∈ S) : GInv S (g.addNode n) := by
  obtain ⟨h1, h2, h3⟩ := hg
  refine ⟨nodup_nodes_addNode h1, ?_, ?_⟩
  · intro x hx
    rcases mem_nodes_addNode.mp hx with hx | rfl
    · exact h2 x hx
    · exact hn
  · intro e he
    rw [edges_addNode] at he
    obtain ⟨he1, he2⟩ := h3 e he
    exact ⟨mem_nodes_addNode.mpr (Or.inl he1), mem_nodes_addNode.mpr (Or.inl he2)⟩

theorem GInv_addEdge {S : List String} {g : DiGraph} {u v : String}
    (hg : GInv S g) (hu : u ∈ S) (hv : v ∈ S) : GInv S (g.addEdge u v) := by
  obtain ⟨h1, h2, h3⟩ := hg
  refine ⟨nodup_nodes_addEdge h1, ?_, ?_⟩
  · intro x hx
    rcases mem_nodes_addEdge.mp hx with hx | rfl | rfl
    · exact h2 x hx
    · exact hu
    · exact hv
  · intro e he
    rcases mem_edges_addEdge.mp he with he | rfl
    · obtain ⟨he1, he2⟩ := h3 e he
      exact ⟨mem_nodes_addEdge.mpr (Or.inl he1), mem_nodes_addEdge.mpr (Or.inl he2)⟩
    · exact ⟨mem_nodes_addEdge.mpr (Or.inr (Or.inl rfl)),
        mem_nodes_addEdge.mpr (Or.inr (Or.inr rfl))⟩

theorem nodes_mono_addEdge {g : DiGraph} {u v x : String} (h : x ∈ g.nodes) :
    x ∈ (g.addEdge u v).nodes :=
  mem_nodes_addEdge.mpr (Or.inl h)

/-! ## Lemmas about the edge-construction loops -/

theorem addExplicitEdges_ok_known {ids : List String} {sid : String} :
    ∀ {g g2 : DiGraph} {ds : List String},
      addExplicitEdges ids sid g ds = .ok g2 → ∀ d ∈ ds, d ∈ ids := by
  intro g g2 ds
  induction ds generalizing g with
  | nil => intro _ d hd; cases hd
  | cons d0 ds ih =>
    intro h d hd
    rw [addExplicitEdges] at h
    split at h
    · rename_i hin
      rcases List.mem_cons.mp hd with rfl | hd2
      · exact hin
      · exact ih h d hd2
    · cases h

theorem addExplicitEdges_ok_edges {ids : List String} {sid : String} :
    ∀ {g g2 : DiGraph} {ds : List String},
      addExplicitEdges ids sid g ds = .ok g2 →
      ∀ e, e ∈ g2.edges ↔ e ∈ g.edges ∨ ∃ d ∈ ds, e = (d, sid) := by
  intro g g2 ds
  induction ds generalizing g with
  | nil => intro h e; cases h; simp
  | cons d0 ds ih =>
    intro h e
    rw [addExplicitEdges] at h
    split at h
    · rw [ih h e, mem_edges_addEdge]
      constructor
      · rintro ((he | rfl) | ⟨d, hd, rfl⟩)
        · exact Or.inl he
        · exact Or.inr ⟨d0, List.mem_cons_self d0 ds, rfl⟩
        · exact Or.inr ⟨d, List.mem_cons_of_mem d0 hd, rfl⟩
      · rintro (he | ⟨d, hd, rfl⟩)
        · exact Or.inl (Or.inl he)
        · rcases List.mem_cons.mp hd with rfl | hd2
          · exact Or.inl (Or.inr rfl)
          · exact Or.inr ⟨d, hd2, rfl⟩
    · cases h

theorem addExplicitEdges_ok_nodes {ids : List String} {sid : String} :
    ∀ {g g2 : DiGraph} {ds : List String} {x : String},
      addExplicitEdges ids sid g ds = .ok g2 → x ∈ g.nodes → x ∈ g2.nodes := by
  intro g g2 ds
  induction ds generalizing g with
  | nil => intro x h hx; cases h; exact hx
  | cons d0 ds ih =>
    intro x h hx
    rw [addExplicitEdges] at h
    split at h
    · exact ih h (nodes_mono_addEdge hx)
    · cases h

theorem addExplicitEdges_GInv {ids : List String} {sid : String} :
    ∀ {g g2 : DiGraph} {ds : List String},
      addExplicitEdges ids sid g ds = .ok g2 → GInv ids g → sid ∈ ids → GInv ids g2 := by
  intro g g2 ds
  induction ds generalizing g with
  | nil => intro h hg _; cases h; exact hg
  | cons d0 ds ih =>
    intro h hg hsid
    rw [addExplicitEdges] at h
    split at h
    · rename_i hin
      exact ih h (GInv_addEdge hg hin hsid) hsid
    · cases h

theorem addExplicitEdges_error {ids : List String} {sid : String} :
    ∀ {g : DiGraph} {ds : List String} {er : BuildError},
      addExplicitEdges ids sid g ds = .error er →
      ∃ d, er = .unknownDependency sid d ∧ d ∈ ds ∧ d ∉ ids := by
  intro g ds
  induction ds generalizing g with
  | nil => intro er h; cases h
  | cons d0 ds ih =>
    intro er h
    rw [addExplicitEdges] at h
    split at h
    · obtain ⟨d, he, hd, hni⟩ := ih h
      exact ⟨d, he, List.mem_cons_of_mem d0 hd, hni⟩
    · rename_i hni
      cases h
      exact ⟨d0, rfl, List.mem_cons_self d0 ds, hni⟩

theorem addExplicitEdges_ok_of_known {ids : List String} {sid : String} :
    ∀ {g : DiGraph} {ds : List String},
      (∀ d ∈ ds, d ∈ ids) → ∃ g2, addExplicitEdges ids sid g ds = .ok g2 := by
  intro g ds
  induction ds generalizing g with
  | nil => intro _; exact ⟨g, rfl⟩
  | cons d0 ds ih =>
    intro hall
    rw [addExplicitEdges, if_pos (hall d0 (List.mem_cons_self d0 ds))]
    exact ih (fun d hd => hall d (List.mem_cons_of_mem d0 hd))

theorem addImplicitEdges_edges {ids : List String} {sid : String} :
    ∀ {g : DiGraph} {l : List String} {e : String × String},
      e ∈ (addImplicitEdges ids sid g l).edges ↔ e ∈ g.edges
        ∨ ∃ inp ∈ l, hasDot inp = true ∧ dotHead inp ∈ ids ∧ dotHead inp ≠ sid
            ∧ e = (dotHead inp, sid) := by
  intro g l
  induction l generalizing g with
  | nil => intro e; rw [addImplicitEdges]; simp
  | cons i0 l ih =>
    intro e
    rw [addImplicitEdges]
    rw [ih]
    by_cases hd : hasDot i0 = true
    · by_cases hg : dotHead i0 ∈ ids ∧ dotHead i0 ≠ sid
      · rw [if_pos hd, if_pos hg, mem_edges_addEdge]
        constructor
        · rintro ((he | rfl) | ⟨inp, hi, h1, h2, h3, rfl⟩)
          · exact Or.inl he
          · exact Or.inr ⟨i0, List.mem_cons_self i0 l, hd, hg.1, hg.2, rfl⟩
          · exact Or.inr ⟨inp, List.mem_cons_of_mem i0 hi, h1, h2, h3, rfl⟩
        · rintro (he | ⟨inp, hi, h1, h2, h3, rfl⟩)
          · exact Or.inl (Or.inl he)
          · rcases List.mem_cons.mp hi with rfl | hi2
            · exact Or.inl (Or.inr rfl)
            · exact Or.inr ⟨inp, hi2, h1, h2, h3, rfl⟩
      · rw [if_pos hd, if_neg hg]
        constructor
        · rintro (he | ⟨inp, hi, h1, h2, h3, rfl⟩)
          · exact Or.inl he
          · exact Or.inr ⟨inp, List.mem_cons_of_mem i0 hi, h1, h2, h3, rfl⟩
        · rintro (he | ⟨inp, hi, h1, h2, h3, rfl⟩)
          · exact Or.inl he
          · rcases List.mem_cons.mp hi with rfl | hi2
            · exact absurd ⟨h2, h3⟩ hg
            · exact Or.inr ⟨inp, hi2, h1, h2, h3, rfl⟩
    · rw [if_neg hd]
      constructor
      · rintro (he | ⟨inp, hi, h1, h2, h3, rfl⟩)
        · exact Or.inl he
        · exact Or.inr ⟨inp, List.mem_cons_of_mem i0 hi, h1, h2, h3, rfl⟩
      · rintro (he | ⟨inp, hi, h1, h2, h3, rfl⟩)
        · exact Or.inl he
        · rcases List.mem_cons.mp hi with rfl | hi2
          · exact absurd h1 hd
          · exact Or.inr ⟨inp, hi2, h1, h2, h3, rfl⟩

theorem addImplicitEdges_nodes {ids : List String} {sid : String} :
    ∀ {g : DiGraph} {l : List String} {x : String},
      x ∈ g.nodes → x ∈ (addImplicitEdges ids sid g l).nodes := by
  intro g l
  induction l generalizing g with
  | nil => intro x hx; exact hx
  | cons i0 l ih =>
    intro x hx
    rw [addImplicitEdges]
    split
    · split
      · exact ih (nodes_mono_addEdge hx)
      · exact ih hx
    · exact ih hx

theorem addImplicitEdges_GInv {ids : List String} {sid : String} :
    ∀ {g : DiGraph} {l : List String},
      GInv ids g → sid ∈ ids → GInv ids (addImplicitEdges ids sid g l) := by
  intro g l
  induction l generalizing g with
  | nil => intro hg _; exact hg
  | cons i0 l ih =>
    intro hg hsid
    rw [addImplicitEdges]
    split
    · split
      · rename_i hguard
        exact ih (GInv_addEdge hg hguard.1 hsid) hsid
      · exact ih hg hsid
    · exact ih hg hsid

/-! ## Lemmas about `processStep` and the step loop -/

theorem processStep_error {ids : List String} {g : DiGraph} {s : WorkflowStep}
    {er : BuildError} (h : processStep ids g s = .error er) :
    ∃ d, er = .unknownDependency s.id d ∧ d ∈ s.depends_on.getD [] ∧ d ∉ ids := by
  rw [processStep] at h
  cases hex : addExplicitEdges ids s.id (g.addNode s.id) (s.depends_on.getD []) with
  | ok g1 => rw [hex] at h; cases h
  | error e1 =>
    rw [hex] at h
    cases h
    obtain ⟨d, he, hd, hni⟩ := addExplicitEdges_error hex
    exact ⟨d, he, hd, hni⟩

theorem processStep_ok_parts {ids : List String} {g g2 : DiGraph} {s : WorkflowStep}
    (h : processStep ids g s = .ok g2) :
    ∃ g1, addExplicitEdges ids s.id (g.addNode s.id) (s.depends_on.getD []) = .ok g1
      ∧ g2 = addImplicitEdges ids s.id g1 s.inputs := by
  rw [processStep] at h
  cases hex : addExplicitEdges ids s.id (g.addNode s.id) (s.depends_on.getD []) with
  | ok g1 =>
    rw [hex] at h
    cases h
    exact ⟨g1, rfl, rfl⟩
  | error e1 => rw [hex] at h; cases h

theorem processStep_ok_known {ids : List String} {g g2 : DiGraph} {s : WorkflowStep}
    (h : processStep ids g s = .ok g2) : ∀ d ∈ s.depends_on.getD [], d ∈ ids := by
  obtain ⟨g1, hex, _⟩ := processStep_ok_parts h
  exact addExplicitEdges_ok_known hex

theorem processStep_ok_of_known {ids : List String} {g : DiGraph} {s : WorkflowStep}
    (hall : ∀ d ∈ s.depends_on.getD [], d ∈ ids) :
    ∃ g2, processStep ids g s = .ok g2 := by
  obtain ⟨g1, hex⟩ := @addExplicitEdges_ok_of_known ids s.id (g.addNode s.id) _ hall
  exact ⟨addImplicitEdges ids s.id g1 s.inputs, by rw [processStep, hex]; rfl⟩

theorem processStep_ok_edges {ids : List String} {g g2 : DiGraph} {s : WorkflowStep}
    (h : processStep ids g s = .ok g2) :
    ∀ e, e ∈ g2.edges ↔ e ∈ g.edges
      ∨ (∃ d ∈ s.depends_on.getD [], e = (d, s.id))
      ∨ (∃ inp ∈ s.inputs, hasDot inp = true ∧ dotHead inp ∈ ids ∧ dotHead inp ≠ s.id
          ∧ e = (dotHead inp, s.id)) := by
  obtain ⟨g1, hex, rfl⟩ := processStep_ok_parts h
  intro e
  rw [addImplicitEdges_edges, addExplicitEdges_ok_edges hex e, edges_addNode]
  exact or_assoc

theorem processStep_ok_nodes {ids : List String} {g g2 : DiGraph} {s : WorkflowStep}
    (h : processStep ids g s = .ok g2) :
    (∀ x ∈ g.nodes, x ∈ g2.nodes) ∧ s.id ∈ g2.nodes := by
  obtain ⟨g1, hex, rfl⟩ := processStep_ok_parts h
  constructor
  · intro x hx
    exact addImplicitEdges_nodes (addExplicitEdges_ok_nodes hex
      (mem_nodes_addNode.mpr (Or.inl hx)))
  · exact addImplicitEdges_nodes (addExplicitEdges_ok_nodes hex
      (mem_nodes_addNode.mpr (Or.inr rfl)))

theorem processStep_GInv {ids : List String} {g g2 : DiGraph} {s : WorkflowStep}
    (h : processStep ids g s = .ok g2) (hg : GInv ids g) (hsid : s.id ∈ ids) :
    GInv ids g2 := by
  obtain ⟨g1, hex, rfl⟩ := processStep_ok_parts h
  exact addImplicitEdges_GInv (addExplicitEdges_GInv hex (GInv_addNode hg hsid) hsid) hsid

theorem buildSteps_error {ids : List String} :
    ∀ {g : DiGraph} {steps : List WorkflowStep} {er : BuildError},
      buildSteps ids g steps = .error er →
      ∃ s ∈ steps, ∃ d, er = .unknownDependency s.id d
        ∧ d ∈ s.depends_on.getD [] ∧ d ∉ ids := by
  intro g steps
  induction steps generalizing g with
  | nil => intro er h; cases h
  | cons s0 steps ih =>
    intro er h
    rw [buildSteps] at h
    cases hp : processStep ids g s0 with
    | ok g1 =>
      rw [hp] at h
      obtain ⟨s, hs, d, he, hd, hni⟩ := ih h
      exact ⟨s, List.mem_cons_of_mem s0 hs, d, he, hd, hni⟩
    | error e1 =>
      rw [hp] at h
      cases h
      obtain ⟨d, he, hd, hni⟩ := processStep_error hp
      exact ⟨s0, List.mem_cons_self s0 steps, d, he, hd, hni⟩

theorem buildSteps_ok_known {ids : List String} :
    ∀ {g g2 : DiGraph} {steps : List WorkflowStep},
      buildSteps ids g steps = .ok g2 →
      ∀ s ∈ steps, ∀ d ∈ s.depends_on.getD [], d ∈ ids := by
  intro g g2 steps
  induction steps generalizing g with
  | nil => intro _ s hs; cases hs
  | cons s0 steps ih =>
    intro h s hs
    rw [buildSteps] at h
    cases hp : processStep ids g s0 with
    | ok g1 =>
      rw [hp] at h
      rcases List.mem_cons.mp hs with rfl | hs2
      · exact processStep_ok_known hp
      · exact ih h s hs2
    | error e1 => rw [hp] at h; cases h

theorem buildSteps_ok_of_known {ids : List String} :
    ∀ {g : DiGraph} {steps : List WorkflowStep},
      (∀ s ∈ steps, ∀ d ∈ s.depends_on.getD [], d ∈ ids) →
      ∃ g2, buildSteps ids g steps = .ok g2 := by
  intro g steps
  induction steps generalizing g with
  | nil => intro _; exact ⟨g, rfl⟩
  | cons s0 steps ih =>
    intro hall
    obtain ⟨g1, hp⟩ := @processStep_ok_of_known ids g s0
      (hall s0 (List.mem_cons_self s0 steps))
    obtain ⟨g2, hrest⟩ := @ih g1
      (fun s hs => hall s (List.mem_cons_of_mem s0 hs))
    exact ⟨g2, by rw [buildSteps, hp]; exact hrest⟩

theorem buildSteps_ok_edges {ids : List String} :
    ∀ {g g2 : DiGraph} {steps : List WorkflowStep},
      buildSteps ids g steps = .ok g2 →
      ∀ e, e ∈ g2.edges ↔ e ∈ g.edges
        ∨ ∃ s ∈ steps, (∃ d ∈ s.depends_on.getD [], e = (d, s.id))
            ∨ (∃ inp ∈ s.inputs, hasDot inp = true ∧ dotHead inp ∈ ids
                ∧ dotHead inp ≠ s.id ∧ e = (dotHead inp, s.id)) := by
  intro g g2 steps
  induction steps generalizing g with
  | nil => intro h e; cases h; simp
  | cons s0 steps ih =>
    intro h e
    rw [buildSteps] at h
    cases hp : processStep ids g s0 with
    | ok g1 =>
      rw [hp] at h
      rw [ih h e, processStep_ok_edges hp e]
      constructor
      · rintro ((he | hex | him) | ⟨s, hs, hcl⟩)
        · exact Or.inl he
        · exact Or.inr ⟨s0, List.mem_cons_self s0 steps, Or.inl hex⟩
        · exact Or.inr ⟨s0, List.mem_cons_self s0 steps, Or.inr him⟩
        · exact Or.inr ⟨s, List.mem_cons_of_mem s0 hs, hcl⟩
      · rintro (he | ⟨s, hs, hcl⟩)
        · exact Or.inl (Or.inl he)
        · rcases List.mem_cons.mp hs with rfl | hs2
          · rcases hcl with hex | him
            · exact Or.inl (Or.inr (Or.inl hex))
            · exact Or.inl (Or.inr (Or.inr him))
          · exact Or.inr ⟨s, hs2, hcl⟩
    | error e1 => rw [hp] at h; cases h

theorem buildSteps_ok_nodes {ids : List String} :
    ∀ {g g2 : DiGraph} {steps : List WorkflowStep},
      buildSteps ids g steps = .ok g2 →
      (∀ x ∈ g.nodes, x ∈ g2.nodes) ∧ ∀ s ∈ steps, s.id ∈ g2.nodes := by
  intro g g2 steps
  induction steps generalizing g with
  | nil => intro h; cases h; exact ⟨fun x hx => hx, fun s hs => absurd hs (List.not_mem_nil s)⟩
  | cons s0 steps ih =>
    intro h
    rw [buildSteps] at h
    cases hp : processStep ids g s0 with
    | ok g1 =>
      rw [hp] at h
      obtain ⟨hmono1, hid1⟩ := processStep_ok_nodes hp
      obtain ⟨hmono2, hids2⟩ := ih h
      refine ⟨fun x hx => hmono2 x (hmono1 x hx), ?_⟩
      intro s hs
      rcases List.mem_cons.mp hs with rfl | hs2
      · exact hmono2 s.id hid1
      · exact hids2 s hs2
    | error e1 => rw [hp] at h; cases h

theorem buildSteps_GInv {ids : List String} :
    ∀ {g g2 : DiGraph} {steps : List WorkflowStep},
      buildSteps ids g steps = .ok g2 → GInv ids g →
      (∀ s ∈ steps, s.id ∈ ids) → GInv ids g2 := by
  intro g g2 steps
  induction steps generalizing g with
  | nil => intro h hg _; cases h; exact hg
  | cons s0 steps ih =>
    intro h hg hids
    rw [buildSteps] at h
    cases hp : processStep ids g s0 with
    | ok g1 =>
      rw [hp] at h
      exact ih h (processStep_GInv hp hg (hids s0 (List.mem_cons_self s0 steps)))
        (fun s hs => hids s (List.mem_cons_of_mem s0 hs))
    | error e1 => rw [hp] at h; cases h

/-! ## Lemmas about the source-peeling acyclicity check -/

theorem peelAux_ok_perm {E : List (String × String)} :
    ∀ {fuel : Nat} {L ord : List String},
      peelAux E fuel L = .ok ord → List.Perm ord L := by
  intro fuel
  induction fuel with
  | zero =>
    intro L ord h
    rw [peelAux] at h
    split at h
    · rename_i he
      cases h
      rw [List.isEmpty_iff.mp he]
    · cases h
  | succ fuel ih =>
    intro L ord h
    rw [peelAux] at h
    split at h
    · rename_i n hp
      split at h
      · rename_i ord2 hrec
        cases h
        have hn : n ∈ L := List.mem_of_find?_eq_some hp
        exact ((ih hrec).cons n).trans (List.perm_cons_erase hn).symm
      · cases h
    · split at h
      · rename_i hp he
        cases h
        rw [List.isEmpty_iff.mp he]
      · cases h

theorem pickSource_no_incoming {E : List (String × String)} {L : List String} {n : String}
    (hp : pickSource E L = some n) : ∀ u ∈ L, (u, n) ∉ E := by
  have hpred := List.find?_some hp
  have : hasIncomingEdge E L n = false := by
    cases hh : hasIncomingEdge E L n
    · rfl
    · rw [hh] at hpred; cases hpred
  rw [hasIncomingEdge, List.any_eq_false] at this
  intro u hu he
  exact (this u hu) (by simpa using he)

theorem peelAux_ok_before {E : List (String × String)} :
    ∀ {fuel : Nat} {L ord : List String},
      peelAux E fuel L = .ok ord →
      ∀ u v, (u, v) ∈ E → u ∈ L → v ∈ L → ord.indexOf u < ord.indexOf v := by
  intro fuel
  induction fuel with
  | zero =>
    intro L ord h u v _ hu _
    rw [peelAux] at h
    split at h
    · rename_i he
      rw [List.isEmpty_iff.mp he] at hu
      cases hu
    · cases h
  | succ fuel ih =>
    intro L ord h u v he hu hv
    rw [peelAux] at h
    split at h
    · rename_i n hp
      split at h
      · rename_i ord2 hrec
        cases h
        by_cases hvn : v = n
        · exact absurd he (hvn ▸ pickSource_no_incoming hp u hu)
        · by_cases hun : u = n
          · rw [hun, List.indexOf_cons_self, List.indexOf_cons_ne ord2 (fun e => hvn e.symm)]
            exact Nat.succ_pos _
          · rw [List.indexOf_cons_ne ord2 (fun e => hun e.symm),
              List.indexOf_cons_ne ord2 (fun e => hvn e.symm)]
            exact Nat.succ_lt_succ (ih hrec u v he
              ((List.mem_erase_of_ne hun).mpr hu) ((List.mem_erase_of_ne hvn).mpr hv))
      · cases h
    · split at h
      · rename_i hp hemp
        rw [List.isEmpty_iff.mp hemp] at hu
        cases hu
      · cases h

theorem peelAux_error_spec {E : List (String × String)} :
    ∀ {fuel : Nat} {L R : List String}, L.length ≤ fuel →
      peelAux E fuel L = .error R →
      R ≠ [] ∧ R ⊆ L ∧ (∀ n ∈ R, ∃ u ∈ R, (u, n) ∈ E) ∧ (L.Nodup → R.Nodup) := by
  intro fuel
  induction fuel with
  | zero =>
    intro L R hlen h
    rw [peelAux] at h
    have : L = [] := List.length_eq_zero.mp (Nat.le_zero.mp hlen)
    rw [this] at h
    cases h
  | succ fuel ih =>
    intro L R hlen h
    rw [peelAux] at h
    split at h
    · rename_i n hp
      split at h
      · cases h
      · rename_i r hrec
        cases h
        have hn : n ∈ L := List.mem_of_find?_eq_some hp
        have hlen2 : (L.erase n).length ≤ fuel := by
          rw [List.length_erase_of_mem hn]
          omega
        obtain ⟨h1, h2, h3, h4⟩ := ih hlen2 hrec
        exact ⟨h1, fun x hx => List.erase_subset n L (h2 hx), h3,
          fun hnd => h4 (hnd.erase n)⟩
    · rename_i hp
      split at h
      · cases h
      · rename_i hemp
        cases h
        refine ⟨fun e => hemp (by rw [e]; rfl), fun x hx => hx, ?_, fun hnd => hnd⟩
        intro n hn
        have := List.find?_eq_none.mp hp n hn
        have hInc : hasIncomingEdge E L n = true := by
          cases hh : hasIncomingEdge E L n
          · rw [hh] at this; simp at this
          · rfl
        rw [hasIncomingEdge, List.any_eq_true] at hInc
        obtain ⟨u, hu, hue⟩ := hInc
        exact ⟨u, hu, by simpa using hue⟩

/-! ## Directed cycles versus the peeling check -/

theorem chainOk_iff {E : List (String × String)} :
    ∀ l : List String, chainOk E l = true ↔ List.Chain' (fun a b => (a, b) ∈ E) l
  | [] => by simp [chainOk]
  | [a] => by simp [chainOk]
  | a :: b :: rest => by
    rw [chainOk, List.chain'_cons, Bool.and_eq_true, chainOk_iff (b :: rest)]
    simp

theorem chainOk_mem_src {E : List (String × String)} :
    ∀ (l : List String) (z : String), chainOk E (l ++ [z]) = true →
      ∀ x ∈ l, ∃ y, (x, y) ∈ E
  | [], _, _, x, hx => absurd hx (List.not_mem_nil x)
  | a :: l', z, h, x, hx => by
    cases l' with
    | nil =>
      rw [List.singleton_append, chainOk, Bool.and_eq_true] at h
      rcases List.mem_singleton.mp hx with rfl
      exact ⟨z, by simpa using h.1⟩
    | cons b l'' =>
      rw [List.cons_append, List.cons_append, chainOk, Bool.and_eq_true] at h
      rcases List.mem_cons.mp hx with rfl | hx2
      · exact ⟨b, by simpa using h.1⟩
      · exact chainOk_mem_src (b :: l'') z (by simpa using h.2) x hx2

theorem isCycle_mem_src {E : List (String × String)} {c : List String}
    (h : isCycle E c = true) : ∀ x ∈ c, ∃ y, (x, y) ∈ E := by
  cases c with
  | nil => cases h
  | cons n rest =>
    rw [isCycle] at h
    exact chainOk_mem_src (n :: rest) n h

theorem chain_indexOf_lt {E : List (String × String)} {L ord : List String} {fuel : Nat}
    (hok : peelAux E fuel L = .ok ord) (hL : ∀ e ∈ E, e.1 ∈ L ∧ e.2 ∈ L) :
    ∀ (l : List String) (a : String), chainOk E (a :: l) = true → l ≠ [] →
      ∀ z ∈ (a :: l).getLast?, ord.indexOf a < ord.indexOf z := by
  intro l
  induction l with
  | nil => intro a _ hne; exact absurd rfl hne
  | cons b l' ih =>
    intro a hchain _ z hz
    rw [chainOk, Bool.and_eq_true] at hchain
    have hab : (a, b) ∈ E := by simpa using hchain.1
    have hstep : ord.indexOf a < ord.indexOf b :=
      peelAux_ok_before hok a b hab (hL (a, b) hab).1 (hL (a, b) hab).2
    cases l' with
    | nil =>
      have hzb : b = z := by
        rw [List.getLast?_cons_cons] at hz
        simpa using hz
      rw [← hzb]
      exact hstep
    | cons c l'' =>
      have hz2 : z ∈ (b :: c :: l'').getLast? := by
        rwa [List.getLast?_cons_cons] at hz
      exact hstep.trans (ih b hchain.2 (by simp) z hz2)

theorem peelAux_ok_not_cyclic {E : List (String × String)} {L ord : List String}
    {fuel : Nat} (hok : peelAux E fuel L = .ok ord)
    (hL : ∀ e ∈ E, e.1 ∈ L ∧ e.2 ∈ L) : ¬ Cyclic E := by
  rintro ⟨c, hc⟩
  cases c with
  | nil => cases hc
  | cons n rest =>
    rw [isCycle] at hc
    have hc2 : chainOk E (n :: (rest ++ [n])) = true := by simpa using hc
    have hlast : n ∈ (n :: (rest ++ [n])).getLast? := by
      have : n :: (rest ++ [n]) = (n :: rest) ++ [n] := by simp
      rw [this, List.getLast?_concat]
      rfl
    have := chain_indexOf_lt hok hL (rest ++ [n]) n hc2 (by simp) n hlast
    exact absurd this (Nat.lt_irrefl _)

/-! ## Extracting a concrete cycle from a stuck set -/

theorem predInSet_spec {E : List (String × String)} {R : List String}
    (hstuck : ∀ n ∈ R, ∃ u ∈ R, (u, n) ∈ E) :
    ∀ n ∈ R, predInSet E R n ∈ R ∧ (predInSet E R n, n) ∈ E := by
  intro n hn
  obtain ⟨u, hu, hue⟩ := hstuck n hn
  rw [predInSet]
  cases hf : R.find? (fun u => decide ((u, n) ∈ E)) with
  | none =>
    exact absurd (by simpa using hue) (List.find?_eq_none.mp hf u hu)
  | some w =>
    exact ⟨List.mem_of_find?_eq_some hf, by simpa using List.find?_some hf⟩

theorem iterPred_length (f : String → String) : ∀ (k : Nat) (x : String),
    (iterPred f x k).length = k + 1
  | 0, _ => rfl
  | k + 1, x => by rw [iterPred, List.length_cons, iterPred_length f k (f x)]

theorem iterPred_head (f : String → String) : ∀ (k : Nat) (x : String),
    (iterPred f x k).head? = some x
  | 0, _ => rfl
  | _ + 1, _ => rfl

theorem iterPred_mem {R : List String} {f : String → String}
    (hf : ∀ n ∈ R, f n ∈ R) : ∀ (k : Nat) (x : String), x ∈ R →
      ∀ y ∈ iterPred f x k, y ∈ R
  | 0, x, hx, y, hy => by
    rw [iterPred, List.mem_singleton] at hy
    exact hy ▸ hx
  | k + 1, x, hx, y, hy => by
    rw [iterPred, List.mem_cons] at hy
    rcases hy with rfl | hy2
    · exact hx
    · exact iterPred_mem hf k (f x) (hf x hx) y hy2

theorem iterPred_chain (f : String → String) : ∀ (k : Nat) (x : String),
    List.Chain' (fun a b => b = f a) (iterPred f x k)
  | 0, x => List.chain'_singleton x
  | k + 1, x => by
    rw [iterPred]
    rw [List.chain'_cons']
    refine ⟨?_, iterPred_chain f k (f x)⟩
    intro b hb
    rw [iterPred_head] at hb
    cases hb
    rfl

theorem split_at_first (t : String) : ∀ acc : List String, t ∈ acc →
    ∃ suf, acc = acc.takeWhile (fun x => decide (x ≠ t)) ++ t :: suf
  | [], hm => absurd hm (List.not_mem_nil t)
  | a :: as, hm => by
    by_cases h : a = t
    · refine ⟨as, ?_⟩
      rw [List.takeWhile_cons]
      rw [h]
      simp
    · rcases List.mem_cons.mp hm with e | hm2
      · exact absurd e.symm h
      · obtain ⟨suf, hsuf⟩ := split_at_first t as hm2
        refine ⟨suf, ?_⟩
        rw [List.takeWhile_cons]
        have : (decide (a ≠ t)) = true := by simpa using h
        rw [this]
        simpa using hsuf

theorem cycleSearch_nil_nodup : ∀ (trail acc : List String), acc.Nodup →
    cycleSearch trail acc = [] → (trail.reverse ++ acc).Nodup
  | [], acc, hacc, _ => by simpa using hacc
  | t :: rest, acc, hacc, h => by
    rw [cycleSearch] at h
    split at h
    · cases h
    · rename_i htni
      have ih := cycleSearch_nil_nodup rest (t :: acc)
        (List.nodup_cons.mpr ⟨htni, hacc⟩) h
      rw [List.reverse_cons, List.append_assoc]
      simpa using ih

theorem cycleSearch_spec {E : List (String × String)} {R : List String}
    {pf : String → String}
    (hpf : ∀ n ∈ R, pf n ∈ R ∧ (pf n, n) ∈ E) :
    ∀ (trail acc : List String),
      (∀ x ∈ trail, x ∈ R) → (∀ x ∈ acc, x ∈ R) →
      List.Chain' (fun a b => b = pf a) trail →
      List.Chain' (fun a b => (a, b) ∈ E) acc →
      (∀ t ∈ (trail.head?), ∀ a ∈ (acc.head?), (t, a) ∈ E) →
      cycleSearch trail acc ≠ [] →
      isCycle E (cycleSearch trail acc) = true ∧ ∀ x ∈ cycleSearch trail acc, x ∈ R
  | [], _, _, _, _, _, _, hne => absurd rfl hne
  | t :: rest, acc, htrailR, haccR, htchain, hachain, hlink, hne => by
    have htR : t ∈ R := htrailR t (List.mem_cons_self t rest)
    have hlinkt : ∀ a ∈ (acc.head?), (t, a) ∈ E := hlink t rfl
    rw [cycleSearch]
    by_cases ht : t ∈ acc
    · rw [if_pos ht]
      obtain ⟨suf, hsplit⟩ := split_at_first t acc ht
      have hmemc : ∀ x ∈ t :: acc.takeWhile (fun x => decide (x ≠ t)), x ∈ R := by
        intro x hx
        rcases List.mem_cons.mp hx with rfl | hx2
        · exact htR
        · refine haccR x ?_
          rw [hsplit]
          exact List.mem_append_left _ hx2
      refine ⟨?_, hmemc⟩
      rw [isCycle, chainOk_iff]
      have hgoal : (t :: acc.takeWhile (fun x => decide (x ≠ t))) ++ [t]
          = t :: (acc.takeWhile (fun x => decide (x ≠ t)) ++ [t]) := by
        rw [List.cons_append]
      rw [hgoal]
      have hpre : List.Chain' (fun a b => (a, b) ∈ E)
          (acc.takeWhile (fun x => decide (x ≠ t)) ++ [t]) := by
        refine hachain.prefix ⟨suf, ?_⟩
        rw [List.append_assoc]
        exact hsplit.symm
      rw [List.chain'_cons']
      refine ⟨?_, hpre⟩
      intro b hb
      cases hpretw : acc.takeWhile (fun x => decide (x ≠ t)) with
      | nil =>
        rw [hpretw] at hb
        have hbt : t = b := by simpa using hb
        have hacchead : acc.head? = some t := by
          rw [hsplit, hpretw]
          rfl
        exact hbt ▸ hlinkt t (by rw [hacchead]; rfl)
      | cons p0 ps =>
        rw [hpretw] at hb
        have hbp : p0 = b := by simpa using hb
        have hacchead : acc.head? = some p0 := by
          rw [hsplit, hpretw]
          rfl
        exact hbp ▸ hlinkt p0 (by rw [hacchead]; rfl)
    · rw [if_neg ht]
      rw [cycleSearch, if_neg ht] at hne
      refine cycleSearch_spec hpf rest (t :: acc)
        (fun x hx => htrailR x (List.mem_cons_of_mem t hx))
        (fun x hx => by
          rcases List.mem_cons.mp hx with rfl | hx2
          · exact htR
          · exact haccR x hx2)
        ((List.chain'_cons'.mp htchain).2)
        (List.chain'_cons'.mpr ⟨hlinkt, hachain⟩)
        ?_ hne
      intro t' ht' a ha
      have ht'pf : t' = pf t := (List.chain'_cons'.mp htchain).1 t' ht'
      have hat : t = a := by simpa using ha
      rw [ht'pf, ← hat]
      exact (hpf t htR).2

theorem cycleFromStuck_spec {E : List (String × String)} {R : List String}
    (hstuck : ∀ n ∈ R, ∃ u ∈ R, (u, n) ∈ E) (hnd : R.Nodup) (hne : R ≠ []) :
    isCycle E (cycleFromStuck E R) = true ∧ ∀ x ∈ cycleFromStuck E R, x ∈ R := by
  cases R with
  | nil => exact absurd rfl hne
  | cons r0 rest =>
    have hpf := predInSet_spec hstuck
    have hfR : ∀ n ∈ r0 :: rest, predInSet E (r0 :: rest) n ∈ r0 :: rest :=
      fun n hn => (hpf n hn).1
    have htrailR := iterPred_mem hfR (r0 :: rest).length r0 (List.mem_cons_self r0 rest)
    have hns : cycleSearch (iterPred (predInSet E (r0 :: rest)) r0 (r0 :: rest).length) [] ≠ [] := by
      intro h0
      have hnd2 := cycleSearch_nil_nodup _ [] List.nodup_nil h0
      rw [List.append_nil] at hnd2
      have htnd := List.nodup_reverse.mp hnd2
      have hsp := List.subperm_of_subset htnd (fun x hx => htrailR x hx)
      have hlen := hsp.length_le
      rw [iterPred_length] at hlen
      simp at hlen
    have hr := cycleSearch_spec hpf
      (iterPred (predInSet E (r0 :: rest)) r0 (r0 :: rest).length) []
      htrailR (fun x hx => absurd hx (List.not_mem_nil x))
      (iterPred_chain _ _ _) List.chain'_nil
      (fun t _ a ha => absurd ha (by simp)) hns
    rw [cycleFromStuck]
    exact hr

/-! ## Bridging the loop, the check, and `build_dependency_graph` -/

/-- The dependency graph accumulated by the step loop when no
unknown-dependency error occurs (the graph that `build_dependency_graph`
then validates); the empty graph otherwise.  Used to name the edge set of a
step list in statements about cyclic inputs, where build itself fails. -/
def graphOf (steps : List WorkflowStep) : DiGraph :=
  match buildSteps (steps.map (fun s => s.id)) ⟨[], []⟩ steps with
  | .ok g => g
  | .error _ => ⟨[], []⟩

theorem buildSteps_eq_graphOf {steps : List WorkflowStep}
    (hdeps : ∀ s ∈ steps, ∀ d ∈ s.depends_on.getD [], d ∈ steps.map (fun s => s.id)) :
    buildSteps (steps.map (fun s => s.id)) ⟨[], []⟩ steps = .ok (graphOf steps) := by
  obtain ⟨g2, hok⟩ := buildSteps_ok_of_known hdeps
  rw [hok, graphOf, hok]

theorem build_ok_parts {steps : List WorkflowStep} {g : DiGraph}
    (h : build_dependency_graph steps = .ok g) :
    buildSteps (steps.map (fun s => s.id)) ⟨[], []⟩ steps = .ok g
      ∧ ∃ ord, peelAux g.edges g.nodes.length g.nodes = .ok ord := by
  rw [build_dependency_graph] at h
  split at h
  · cases h
  · rename_i dag hbs
    split at h
    · rename_i ord hpeel
      cases h
      exact ⟨hbs, ord, hpeel⟩
    · cases h

/-- C4: a `dependsOn` entry that names no step in the list makes build fail
with the unknown-dependency `ValueError` naming the offending step's id and
exactly the missing id; no graph is returned (the result is the error, not
a graph). -/
theorem build_unknown_dependency (steps : List WorkflowStep)
    (hbad : ∃ s ∈ steps, ∃ d ∈ s.depends_on.getD [], d ∉ steps.map (fun s => s.id)) :
    ∃ sid did, build_dependency_graph steps = .error (.unknownDependency sid did)
      ∧ (∃ s ∈ steps, s.id = sid ∧ did ∈ s.depends_on.getD [])
      ∧ did ∉ steps.map (fun s => s.id) := by
  cases hbs : buildSteps (steps.map (fun s => s.id)) ⟨[], []⟩ steps with
  | ok g =>
    obtain ⟨s, hs, d, hd, hni⟩ := hbad
    exact absurd (buildSteps_ok_known hbs s hs d hd) hni
  | error er =>
    obtain ⟨s, hs, d, he, hd, hni⟩ := buildSteps_error hbs
    refine ⟨s.id, d, ?_, ⟨s, hs, rfl, hd⟩, hni⟩
    rw [build_dependency_graph, hbs, he]

/-- Witness for `build_unknown_dependency`: one step depending on the
absent id `ghost`. -/
theorem build_unknown_dependency_witness :
    ∃ sid did, build_dependency_graph [{ id := "S", depends_on := some ["ghost"] }]
        = .error (.unknownDependency sid did)
      ∧ (∃ s ∈ [({ id := "S", depends_on := some ["ghost"] } : WorkflowStep)],
          s.id = sid ∧ did ∈ s.depends_on.getD [])
      ∧ did ∉ [({ id := "S", depends_on := some ["ghost"] } : WorkflowStep)].map
          (fun s => s.id) :=
  build_unknown_dependency [{ id := "S", depends_on := some ["ghost"] }] (by decide)

/-- C3: for a unique-id step list on which build succeeds, the edge set is
exactly: an edge `dep -> step` for every id in a step's `dependsOn`, plus
an edge `producer -> step` for every `inputs` entry with a `.` whose text
before the first `.` names a different step of the set.  Entries with no
separator, or whose prefix resolves to no step (or only to the step
itself), contribute nothing. -/
theorem build_edges_exact (steps : List WorkflowStep) (g : DiGraph)
    (_hnd : (steps.map (fun s => s.id)).Nodup)
    (hok : build_dependency_graph steps = .ok g) :
    ∀ a b, (a, b) ∈ g.edges ↔
      (∃ s ∈ steps, s.id = b ∧ a ∈ s.depends_on.getD [])
      ∨ (∃ s ∈ steps, s.id = b ∧ ∃ inp ∈ s.inputs, hasDot inp = true
          ∧ dotHead inp = a ∧ a ∈ steps.map (fun s => s.id) ∧ a ≠ b) := by
  have hbs := (build_ok_parts hok).1
  intro a b
  rw [buildSteps_ok_edges hbs (a, b)]
  constructor
  · rintro (h0 | ⟨s, hs, ⟨d, hd, heq⟩ | ⟨inp, hi, h1, h2, h3, heq⟩⟩)
    · cases h0
    · rw [Prod.mk.injEq] at heq
      exact Or.inl ⟨s, hs, heq.2.symm, heq.1 ▸ hd⟩
    · rw [Prod.mk.injEq] at heq
      refine Or.inr ⟨s, hs, heq.2.symm, inp, hi, h1, heq.1.symm, ?_, ?_⟩
      · rw [heq.1]; exact h2
      · rw [heq.1, heq.2]; exact h3
  · rintro (⟨s, hs, hb, hd⟩ | ⟨s, hs, hb, inp, hi, h1, hha, hain, hanb⟩)
    · exact Or.inr ⟨s, hs, Or.inl ⟨a, hd, by rw [hb]⟩⟩
    · refine Or.inr ⟨s, hs, Or.inr ⟨inp, hi, h1, ?_, ?_, ?_⟩⟩
      · rw [hha]; exact hain
      · rw [hha, hb]; exact hanb
      · rw [hha, hb]

/-- The specification's scenario step `A` (no dependencies). -/
def stepA : WorkflowStep := { id := "A" }

/-- The specification's scenario step `B` (`dependsOn=[A]`). -/
def stepB : WorkflowStep := { id := "B", depends_on := some ["A"] }

/-- The specification's scenario step `C` (`inputs=["A.result"]`). -/
def stepC : WorkflowStep := { id := "C", inputs := ["A.result"] }

/-- Witness for `build_edges_exact`: in the scenario `A`, `B`, `C`, the
edge `("A", "B")` satisfies the characterization and `("B", "C")` does not. -/
theorem build_edges_exact_witness :
    ("A", "B") ∈ (DiGraph.mk ["A", "B", "C"] [("A", "B"), ("A", "C")]).edges
      ∧ ¬ ("B", "C") ∈ (DiGraph.mk ["A", "B", "C"] [("A", "B"), ("A", "C")]).edges := by
  have h := build_edges_exact [stepA, stepB, stepC]
    ⟨["A", "B", "C"], [("A", "B"), ("A", "C")]⟩ (by decide) (by decide)
  constructor
  · exact (h "A" "B").mpr (Or.inl ⟨stepB,
      List.mem_cons_of_mem _ (List.mem_cons_self _ _), rfl, by decide⟩)
  · intro hmem
    rcases (h "B" "C").mp hmem with ⟨s, hs, _, hd⟩ | ⟨s, hs, _, inp, hi, _, hh, _, _⟩
    · simp only [List.mem_cons, List.not_mem_nil, or_false] at hs
      rcases hs with rfl | rfl | rfl
      · simp [stepA] at hd
      · revert hd; decide
      · simp [stepC] at hd
    · simp only [List.mem_cons, List.not_mem_nil, or_false] at hs
      rcases hs with rfl | rfl | rfl
      · simp [stepA] at hi
      · simp [stepB] at hi
      · have : inp = "A.result" := by simpa [stepC] using hi
        rw [this] at hh
        exact absurd hh (by decide)

/-- C2: for unique-id step lists with all explicit dependencies resolvable
and an acyclic edge set, build succeeds, and the deterministic execution
order (`executionOrder`, modelled from the spec with the mandated
declaration-order tie-break) lists every step exactly once, with every step
strictly after all steps it depends on, explicitly or implicitly.
Determinism holds by construction: `executionOrder` is a pure function of
the step list, and its tie-break always picks the first declared runnable
step. -/
theorem build_returns_deterministic_topo_order (steps : List WorkflowStep)
    (hnd : (steps.map (fun s => s.id)).Nodup)
    (hdeps : ∀ s ∈ steps, ∀ d ∈ s.depends_on.getD [], d ∈ steps.map (fun s => s.id))
    (hacyc : ¬ Cyclic (graphOf steps).edges) :
    ∃ g ord, build_dependency_graph steps = .ok g ∧ g = graphOf steps
      ∧ executionOrder steps = some ord
      ∧ List.Perm ord (steps.map (fun s => s.id))
      ∧ ∀ u v, (u, v) ∈ g.edges → ord.indexOf u < ord.indexOf v := by
  have hbs := buildSteps_eq_graphOf hdeps
  have hGInv : GInv (steps.map (fun s => s.id)) (graphOf steps) :=
    buildSteps_GInv hbs (GInv_empty _) (fun s hs => List.mem_map_of_mem _ hs)
  have hE : ∀ e ∈ (graphOf steps).edges,
      e.1 ∈ steps.map (fun s => s.id) ∧ e.2 ∈ steps.map (fun s => s.id) := by
    intro e he
    obtain ⟨h1, h2⟩ := hGInv.2.2 e he
    exact ⟨hGInv.2.1 _ h1, hGInv.2.1 _ h2⟩
  cases hpeel : peelAux (graphOf steps).edges (steps.map (fun s => s.id)).length
      (steps.map (fun s => s.id)) with
  | error R =>
    obtain ⟨hne, _, hstuck, hndR⟩ := peelAux_error_spec (Nat.le_refl _) hpeel
    obtain ⟨hcyc, _⟩ := cycleFromStuck_spec hstuck (hndR hnd) hne
    exact absurd ⟨_, hcyc⟩ hacyc
  | ok ord =>
    cases hpeelN : peelAux (graphOf steps).edges (graphOf steps).nodes.length
        (graphOf steps).nodes with
    | error R =>
      obtain ⟨hne, _, hstuck, hndR⟩ := peelAux_error_spec (Nat.le_refl _) hpeelN
      obtain ⟨hcyc, _⟩ := cycleFromStuck_spec hstuck (hndR hGInv.1) hne
      exact absurd ⟨_, hcyc⟩ hacyc
    | ok ordN =>
      refine ⟨graphOf steps, ord, ?_, rfl, ?_, peelAux_ok_perm hpeel, ?_⟩
      · simp only [build_dependency_graph, hbs, hpeelN]
      · simp only [executionOrder, hbs, hpeel]
      · intro u v he
        exact peelAux_ok_before hpeel u v he (hE (u, v) he).1 (hE (u, v) he).2

/-- Witness for `build_returns_deterministic_topo_order`: the
specification's scenario `A`, `B` (`dependsOn=[A]`), `C`
(`inputs=["A.result"]`), whose acyclicity is certified by a successful
peel of its concrete edge set. -/
theorem build_returns_deterministic_topo_order_witness :
    ∃ g ord, build_dependency_graph [stepA, stepB, stepC] = .ok g
      ∧ g = graphOf [stepA, stepB, stepC]
      ∧ executionOrder [stepA, stepB, stepC] = some ord
      ∧ List.Perm ord ([stepA, stepB, stepC].map (fun s => s.id))
      ∧ ∀ u v, (u, v) ∈ g.edges → ord.indexOf u < ord.indexOf v :=
  build_returns_deterministic_topo_order [stepA, stepB, stepC] (by decide) (by decide)
    (peelAux_ok_not_cyclic
      (by decide : peelAux (graphOf [stepA, stepB, stepC]).edges 3 ["A", "B", "C"]
        = .ok ["A", "B", "C"])
      (by decide))

/-- C5: when every explicit dependency resolves (so the edge set is actually
constructed) and that edge set contains a directed cycle, build fails with
the circular-dependency error carrying a concrete cycle: a nonempty
sequence of step ids each with an edge to the next and the last back to the
first, all of them ids of steps in the input; no graph is returned. -/
theorem build_cyclic_error (steps : List WorkflowStep)
    (hdeps : ∀ s ∈ steps, ∀ d ∈ s.depends_on.getD [], d ∈ steps.map (fun s => s.id))
    (hcyc : Cyclic (graphOf steps).edges) :
    ∃ c, build_dependency_graph steps = .error (.circular c)
      ∧ isCycle (graphOf steps).edges c = true
      ∧ c ≠ [] ∧ ∀ x ∈ c, x ∈ steps.map (fun s => s.id) := by
  have hbs := buildSteps_eq_graphOf hdeps
  have hGInv : GInv (steps.map (fun s => s.id)) (graphOf steps) :=
    buildSteps_GInv hbs (GInv_empty _) (fun s hs => List.mem_map_of_mem _ hs)
  cases hpeelN : peelAux (graphOf steps).edges (graphOf steps).nodes.length
      (graphOf steps).nodes with
  | ok ordN => exact absurd hcyc (peelAux_ok_not_cyclic hpeelN hGInv.2.2)
  | error R =>
    obtain ⟨hne, hsub, hstuck, hndR⟩ := peelAux_error_spec (Nat.le_refl _) hpeelN
    obtain ⟨hcycR, hmemR⟩ := cycleFromStuck_spec hstuck (hndR hGInv.1) hne
    refine ⟨cycleFromStuck (graphOf steps).edges R, ?_, hcycR, ?_, ?_⟩
    · simp only [build_dependency_graph, hbs, hpeelN]
    · intro e
      rw [e] at hcycR
      cases hcycR
    · intro x hx
      exact hGInv.2.1 x (hsub (hmemR x hx))

/-- Witness for `build_cyclic_error`: two steps depending on each other. -/
theorem build_cyclic_error_witness :
    ∃ c, build_dependency_graph
        [{ id := "X", depends_on := some ["Y"] }, { id := "Y", depends_on := some ["X"] }]
        = .error (.circular c)
      ∧ isCycle (graphOf
          [{ id := "X", depends_on := some ["Y"] }, { id := "Y", depends_on := some ["X"] }]).edges
          c = true
      ∧ c ≠ []
      ∧ ∀ x ∈ c, x ∈ [({ id := "X", depends_on := some ["Y"] } : WorkflowStep),
          { id := "Y", depends_on := some ["X"] }].map (fun s => s.id) :=
  build_cyclic_error
    [{ id := "X", depends_on := some ["Y"] }, { id := "Y", depends_on := some ["X"] }]
    (by decide) ⟨["X", "Y"], by decide⟩

/-- C10: self-references are treated asymmetrically.  An `inputs` entry
whose prefix before the first `.` is the step's own id adds no edge and
causes no failure — the `dep_id != step.id` guard rejects it and implicit
entries never raise — so build returns the one-node, zero-edge graph.  A
`dependsOn` entry equal to the step's own id adds a self-loop edge, upon
which build fails with the circular-dependency error reporting the one-node
cycle. -/
theorem build_self_reference_asymmetric (s : WorkflowStep) (out : String) :
    build_dependency_graph [{ s with depends_on := none, inputs := [s.id ++ "." ++ out] }]
        = .ok ⟨[s.id], []⟩
    ∧ build_dependency_graph [{ s with depends_on := some [s.id], inputs := [] }]
        = .error (.circular [s.id]) := by
  have hnode : DiGraph.addNode ⟨[], []⟩ s.id = ⟨[s.id], []⟩ := by
    rw [DiGraph.addNode, if_neg (List.not_mem_nil s.id)]
    rfl
  constructor
  · have hg : ¬ (dotHead (s.id ++ "." ++ out) ∈ [s.id]
        ∧ dotHead (s.id ++ "." ++ out) ≠ s.id) := by
      rintro ⟨hm, hne⟩
      exact hne (List.mem_singleton.mp hm)
    have himpl : addImplicitEdges [s.id] s.id ⟨[s.id], []⟩ [s.id ++ "." ++ out]
        = ⟨[s.id], []⟩ := by
      rw [addImplicitEdges]
      split_ifs with h1 h2
      try exact absurd h2 hg
      all_goals rfl
    have hps : processStep [s.id] ⟨[], []⟩
        { s with depends_on := none, inputs := [s.id ++ "." ++ out] }
        = .ok ⟨[s.id], []⟩ := by
      show Except.ok (addImplicitEdges [s.id] s.id (DiGraph.addNode ⟨[], []⟩ s.id)
        [s.id ++ "." ++ out]) = _
      rw [hnode, himpl]
    have hpick : pickSource ([] : List (String × String)) [s.id] = some s.id := by
      rw [pickSource]
      apply List.find?_cons_of_pos
      simp [hasIncomingEdge]
    simp only [build_dependency_graph, List.map, buildSteps, hps, peelAux, hpick,
      List.erase_cons_head, List.isEmpty_nil]
    rfl
  · have hone : DiGraph.addNode ⟨[s.id], []⟩ s.id = ⟨[s.id], []⟩ := by
      rw [DiGraph.addNode, if_pos (List.mem_singleton_self s.id)]
    have hedge : DiGraph.addEdge ⟨[s.id], []⟩ s.id s.id = ⟨[s.id], [(s.id, s.id)]⟩ := by
      rw [DiGraph.addEdge]
      rw [hone, hone, if_neg (List.not_mem_nil _)]
      rfl
    have hexp : addExplicitEdges [s.id] s.id ⟨[s.id], []⟩ [s.id]
        = .ok ⟨[s.id], [(s.id, s.id)]⟩ := by
      rw [addExplicitEdges, if_pos (List.mem_singleton_self s.id), hedge, addExplicitEdges]
    have hps : processStep [s.id] ⟨[], []⟩ { s with depends_on := some [s.id], inputs := [] }
        = .ok ⟨[s.id], [(s.id, s.id)]⟩ := by
      show (addExplicitEdges [s.id] s.id (DiGraph.addNode ⟨[], []⟩ s.id) [s.id]).bind
        (fun g => Except.ok (addImplicitEdges [s.id] s.id g [])) = _
      rw [hnode, hexp]
      rfl
    have hpick2 : pickSource [(s.id, s.id)] [s.id] = none := by
      rw [pickSource]
      rw [List.find?_cons_of_neg _ (by simp [hasIncomingEdge])]
      rfl
    have hpf : predInSet [(s.id, s.id)] [s.id] s.id = s.id := by
      rw [predInSet]
      rw [List.find?_cons_of_pos _ (by simp)]
    have hcs : cycleFromStuck [(s.id, s.id)] [s.id] = [s.id] := by
      rw [cycleFromStuck]
      have hiter : iterPred (predInSet [(s.id, s.id)] [s.id]) s.id ([s.id].length)
          = [s.id, s.id] := by
        rw [List.length_singleton, iterPred, hpf, iterPred]
      rw [hiter]
      rw [cycleSearch, if_neg (List.not_mem_nil s.id), cycleSearch,
        if_pos (List.mem_singleton_self s.id)]
      simp [List.takeWhile]
    simp only [build_dependency_graph, List.map, buildSteps, hps, peelAux, hpick2,
      List.isEmpty_cons]
    rw [if_neg Bool.false_ne_true]
    simp only [hcs]
